import Mathlib

/-!
Verification of the multi-dimensional histogram core (histogram.h).

Modelling conventions:
* Finite double values are modelled exactly by rationals; the IEEE special
  values are modelled explicitly by the inductive type FP with constructors
  for NaN and the two infinities.  Comparisons follow IEEE semantics (every
  comparison involving NaN is false); addition and multiplication propagate
  NaN and infinities.
* C++ size_t arithmetic is modelled by Nat (the quantities involved are bin
  counts and flat offsets, for which overflow is not part of the design).
* std::vector<double>::at is modelled by a bounds check: an out-of-range
  access makes the operation return none (the thrown std::out_of_range).
* std::upper_bound over the edge vector returns the first position whose
  edge compares strictly greater than the probed value; over a partitioned
  (in particular sorted) range this is List.findIdx of that predicate.
-/

/-- Model of a C++ double: a finite rational, an infinity, or NaN. -/
inductive FP where
  | nan : FP
  | negInf : FP
  | posInf : FP
  | fin : ℚ → FP
deriving DecidableEq

namespace FP

/-- std::isnan. -/
def isNan : FP → Bool
  | nan => true
  | _ => false

/-- True exactly for finite values. -/
def isFinite : FP → Bool
  | fin _ => true
  | _ => false

/-- IEEE operator< : false whenever NaN is involved. -/
def lt : FP → FP → Bool
  | nan, _ => false
  | _, nan => false
  | negInf, negInf => false
  | negInf, _ => true
  | _, negInf => false
  | posInf, _ => false
  | fin _, posInf => true
  | fin a, fin b => decide (a < b)

/-- IEEE operator<= : false whenever NaN is involved. -/
def le : FP → FP → Bool
  | nan, _ => false
  | _, nan => false
  | negInf, _ => true
  | _, negInf => false
  | _, posInf => true
  | posInf, _ => false
  | fin a, fin b => decide (a ≤ b)

/-- IEEE addition on the model (exact on finite values). -/
def add : FP → FP → FP
  | nan, _ => nan
  | _, nan => nan
  | posInf, negInf => nan
  | negInf, posInf => nan
  | posInf, _ => posInf
  | _, posInf => posInf
  | negInf, _ => negInf
  | _, negInf => negInf
  | fin a, fin b => fin (a + b)

/-- IEEE multiplication on the model (exact on finite values). -/
def mul : FP → FP → FP
  | nan, _ => nan
  | _, nan => nan
  | posInf, posInf => posInf
  | posInf, negInf => negInf
  | negInf, posInf => negInf
  | negInf, negInf => posInf
  | posInf, fin b => if b = 0 then nan else if 0 < b then posInf else negInf
  | fin a, posInf => if a = 0 then nan else if 0 < a then posInf else negInf
  | negInf, fin b => if b = 0 then nan else if 0 < b then negInf else posInf
  | fin a, negInf => if a = 0 then nan else if 0 < a then negInf else posInf
  | fin a, fin b => fin (a * b)

end FP

/-- binning::general's constructor body: prepend -inf if the first
caller-supplied edge compares strictly greater than -inf, append +inf if the
last compares strictly less than +inf.  The caller must supply a nonempty
list (edges.front() on an empty vector is undefined in the source); the
headD/getLastD defaults are never relevant under that precondition. -/
def general_sentinel_edges (edges : List FP) : List FP :=
  (if FP.lt FP.negInf (edges.headD FP.nan) then [FP.negInf] else [])
    ++ edges
    ++ (if FP.lt (edges.getLastD FP.nan) FP.posInf then [FP.posInf] else [])

/-- std::upper_bound over the stored edges: position of the first edge
strictly greater than the value (list length when there is none). -/
def upper_bound (E : List FP) (v : FP) : ℕ :=
  E.findIdx (fun e => FP.lt v e)

/-- binning::general::index: upper_bound position minus one.  The source
asserts that the position is strictly positive, which holds whenever the
stored edges start with -inf. -/
def general_index (E : List FP) (v : FP) : ℕ :=
  upper_bound E v - 1

/-- A transformation strategy: the forward/inverse pair used by
binning::uniform.  The uniform scheme is templated on this in the source. -/
structure Transform where
  map : ℚ → ℚ
  imap : ℚ → ℚ

/-- detail::identity, the trivial linear mapping. -/
def identityT : Transform :=
  { map := fun v => v, imap := fun v => v }

/-- The state of a binning::uniform<Transformation> object. -/
structure Uniform where
  T : Transform
  name : String
  edges : List FP
  offset : ℚ
  range : ℚ
  min : ℚ
  max : ℚ
  nsteps : ℕ

/-- binning::uniform's constructor from (low, high, nbins, name).
The interior edges are map(range * (i/(nsteps-1)) + offset); the source
divides doubles, so for nsteps = 1 the quotient 0/0 is NaN there while the
rational model yields 0 — every theorem about interior edge values therefore
assumes nsteps >= 2 (nbins >= 1). -/
def Uniform.make (T : Transform) (low high : ℚ) (nbins : ℕ) (name : String) : Uniform :=
  let offset := T.imap low
  let range := T.imap high - T.imap low
  let nsteps := nbins + 1
  { T := T, name := name, offset := offset, range := range,
    min := T.map (range * 0 + offset),
    max := T.map (range * 1 + offset),
    nsteps := nsteps,
    edges := FP.negInf ::
      (((List.range nsteps).map fun (i : ℕ) =>
        FP.fin (T.map (range * ((i : ℚ) / ((nsteps : ℚ) - 1)) + offset)))
       ++ [FP.posInf]) }

/-- binning::uniform::index.  The first two branches are the source's IEEE
comparisons against the cached min_/max_; the last branch computes
size_t(floor((nsteps-1) * (imap(value)-offset)/range)) + 1.  A NaN value
reaches the last branch in the source, where casting NaN to size_t is
undefined behavior; the model returns 0 there and no theorem depends on that
case (fill filters NaN beforehand).  An infinite value never reaches the
last branch. -/
def Uniform.index (U : Uniform) (v : FP) : ℕ :=
  if FP.lt v (FP.fin U.min) then 0
  else if FP.le (FP.fin U.max) v then U.edges.length - 2
  else
    match v with
    | FP.fin q =>
        (Int.floor (((U.nsteps : ℚ) - 1) * ((U.T.imap q - U.offset) / U.range))).toNat + 1
    | _ => 0

/-- One dimension of a histogram: either binning scheme variant. -/
inductive Binning where
  | general : String → List FP → Binning
  | uniform : Uniform → Binning

/-- nbins() of either variant. -/
def Binning.nbins : Binning → ℕ
  | general _ E => E.length - 1
  | uniform U => U.nsteps + 1

/-- edges() of either variant. -/
def Binning.edges : Binning → List FP
  | general _ E => E
  | uniform U => U.edges

/-- index(value) of either variant. -/
def Binning.index : Binning → FP → ℕ
  | general _ E, v => general_index E v
  | uniform U, v => U.index v

namespace histogram_impl

/-- histogram_impl::size: product of nbins over the dimension pack,
computed by the source's recursion extent() * tail.size(). -/
def size : List Binning → ℕ
  | [] => 1
  | d :: ds => d.nbins * size ds

/-- histogram_impl::stride at recursion depth i: the size() of the
sub-histogram holding the dimensions after i. -/
def stride (dims : List Binning) (i : ℕ) : ℕ :=
  size (dims.drop (i + 1))

/-- histogram_impl::index: this dimension's index times its stride plus the
tail's index.  The arity mismatch case is unrepresentable in the source
(static_assert); the model returns 0 there and every theorem carries the
arity hypothesis. -/
def index : List Binning → List FP → ℕ
  | d :: ds, v :: vs => d.index v * size ds + index ds vs
  | _, _ => 0

/-- histogram_impl::valid: no coordinate is NaN. -/
def valid : List FP → Bool
  | [] => true
  | v :: vs => !v.isNan && valid vs

end histogram_impl

/-- The state of a histogram<Dimensions...> object. -/
structure histogram where
  dims : List Binning
  title : String
  n_entries : ℕ
  bincontent : List FP
  squaredweights : List FP

/-- histogram's constructor: both flat arrays are zero-initialized with
length size(). -/
def histogram.make (dims : List Binning) (title : String) : histogram :=
  { dims := dims, title := title, n_entries := 0,
    bincontent := List.replicate (histogram_impl.size dims) (FP.fin 0),
    squaredweights := List.replicate (histogram_impl.size dims) (FP.fin 0) }

/-- histogram::fill_with_weight.  Returns none when a vector::at bounds
check fails (the source throws std::out_of_range; when the second at throws
the source has already modified bincontent_, a state no theorem relies on
since both arrays always have equal length in histograms built by the
constructor). -/
def histogram.fill_with_weight (H : histogram) (weight : FP) (coords : List FP) :
    Option (Bool × histogram) :=
  if histogram_impl.valid coords then
    let offset := histogram_impl.index H.dims coords
    if offset < H.bincontent.length then
      if offset < H.squaredweights.length then
        some (true,
          { H with
            bincontent :=
              H.bincontent.set offset
                (FP.add (H.bincontent.getD offset (FP.fin 0)) weight),
            squaredweights :=
              H.squaredweights.set offset
                (FP.add (H.squaredweights.getD offset (FP.fin 0)) (FP.mul weight weight)),
            n_entries := H.n_entries + 1 })
      else none
    else none
  else some (false, H)

/-- histogram::fill: fill_with_weight with weight 1. -/
def histogram.fill (H : histogram) (coords : List FP) : Option (Bool × histogram) :=
  H.fill_with_weight (FP.fin 1) coords

/-! Helper lemmas -/

/-- getD after set at the same (in-range) position yields the new value. -/
theorem getD_set_self {α : Type} (l : List α) (i : ℕ) (x d : α) (h : i < l.length) :
    (l.set i x).getD i d = x := by
  induction l generalizing i with
  | nil => simp at h
  | cons a t ih =>
    cases i with
    | zero => rfl
    | succ j =>
      simp only [List.set, List.getD_cons_succ]
      exact ih j (by simpa using h)

/-- getD after set at a different position is unchanged. -/
theorem getD_set_ne {α : Type} (l : List α) (i j : ℕ) (x d : α) (h : i ≠ j) :
    (l.set i x).getD j d = l.getD j d := by
  induction l generalizing i j with
  | nil => rfl
  | cons a t ih =>
    cases i with
    | zero =>
      cases j with
      | zero => exact absurd rfl h
      | succ k => rfl
    | succ i0 =>
      cases j with
      | zero => rfl
      | succ k =>
        simp only [List.set, List.getD_cons_succ]
        exact ih i0 k (by omega)

/-- valid is exactly the absence of NaN coordinates. -/
theorem valid_iff (vs : List FP) :
    histogram_impl.valid vs = true ↔ ∀ v ∈ vs, v.isNan = false := by
  induction vs with
  | nil => simp [histogram_impl.valid]
  | cons v t ih => simp [histogram_impl.valid, ih]

/-- A successful bounds-checked fill produces exactly the state with one bin
pair updated and the entry counter incremented. -/
theorem fill_spec (H : histogram) (w : FP) (coords : List FP)
    (hv : histogram_impl.valid coords = true)
    (h1 : histogram_impl.index H.dims coords < H.bincontent.length)
    (h2 : histogram_impl.index H.dims coords < H.squaredweights.length) :
    H.fill_with_weight w coords = some (true,
      { H with
        bincontent := H.bincontent.set (histogram_impl.index H.dims coords)
          (FP.add (H.bincontent.getD (histogram_impl.index H.dims coords) (FP.fin 0)) w),
        squaredweights := H.squaredweights.set (histogram_impl.index H.dims coords)
          (FP.add (H.squaredweights.getD (histogram_impl.index H.dims coords) (FP.fin 0))
            (FP.mul w w)),
        n_entries := H.n_entries + 1 }) := by
  simp [histogram.fill_with_weight, hv, h1, h2]

/-! Claim theorems -/

/-- C1: evaluation at the failing input.  With caller edges {0, 1, 2} the
stored edge list E is [-inf, 0, 1, 2, +inf] of length 5.  The claim states
that index(+inf) = len(E) - 2 = 3 (the overflow bin); the code's
upper_bound finds no edge strictly greater than +inf and index(+inf) is
len(E) - 1 = 4, one past the overflow bin and equal to nbins(). -/
theorem general_index_at_posInf :
    general_index (general_sentinel_edges [FP.fin 0, FP.fin 1, FP.fin 2]) FP.posInf = 4
    ∧ (general_sentinel_edges [FP.fin 0, FP.fin 1, FP.fin 2]).length = 5 := by
  exact ⟨rfl, rfl⟩

/-- C2: evaluation at the failing input.  On a one-dimensional histogram
over the Non-Equispaced scheme with caller edges {0, 1, 2}, both fill(+inf)
and fill_with_weight(1, +inf) compute flat offset 4 = size() and the
bounds-checked array access throws (modelled by none) instead of returning
success with the coordinate routed to the overflow bin. -/
theorem fill_posInf_general_throws :
    (histogram.make [Binning.general "general"
        (general_sentinel_edges [FP.fin 0, FP.fin 1, FP.fin 2])] "t").fill [FP.posInf] = none
    ∧ histogram_impl.valid [FP.posInf] = true
    ∧ histogram_impl.size [Binning.general "general"
        (general_sentinel_edges [FP.fin 0, FP.fin 1, FP.fin 2])] = 4 := by
  exact ⟨rfl, rfl, rfl⟩

/-- C3: counterexample.  The caller-supplied edge list [-inf, +inf] is
strictly ascending, yet neither sentinel is prepended or appended, so the
constructed Non-Equispaced scheme has bin_count() = 1, refuting
"bin_count >= 2 always". -/
theorem general_nbins_one_counterexample :
    (Binning.general "x" (general_sentinel_edges [FP.negInf, FP.posInf])).nbins = 1 ∧
    ¬ 2 ≤ (Binning.general "x" (general_sentinel_edges [FP.negInf, FP.posInf])).nbins := by
  exact ⟨rfl, by decide⟩

/-- C3 (amended): for every Equispaced scheme edge_count = bin_count + 1 and
bin_count >= 2; for every Non-Equispaced scheme built from a nonempty
caller edge list, edge_count = bin_count + 1, and bin_count >= 2 holds
provided at least one caller-supplied edge is finite. -/
theorem binning_edge_invariants :
    (∀ (T : Transform) (low high : ℚ) (n : ℕ) (name : String),
      (Binning.uniform (Uniform.make T low high n name)).edges.length
          = (Binning.uniform (Uniform.make T low high n name)).nbins + 1
        ∧ 2 ≤ (Binning.uniform (Uniform.make T low high n name)).nbins)
    ∧ (∀ (edges : List FP) (name : String), edges ≠ [] →
        (Binning.general name (general_sentinel_edges edges)).edges.length
            = (Binning.general name (general_sentinel_edges edges)).nbins + 1
          ∧ ((∃ e ∈ edges, e.isFinite = true) →
              2 ≤ (Binning.general name (general_sentinel_edges edges)).nbins)) := by
  constructor
  · intro T low high n name
    constructor
    · simp only [Binning.edges, Binning.nbins, Uniform.make, List.length_cons,
        List.length_append, List.length_map, List.length_range, List.length_singleton,
        List.length_nil]
    · simp [Binning.nbins, Uniform.make]
  · intro edges name hne
    have hlen : 1 ≤ (general_sentinel_edges edges).length := by
      rcases edges with _ | ⟨a, t⟩
      · exact absurd rfl hne
      · simp [general_sentinel_edges]
        omega
    constructor
    · simp only [Binning.edges, Binning.nbins]
      omega
    · rintro ⟨e, he, hfin⟩
      have h3 : 3 ≤ (general_sentinel_edges edges).length := by
        rcases edges with _ | ⟨a, t⟩
        · simp at he
        · rcases t with _ | ⟨b, t2⟩
          · -- single caller edge: it is the finite one, both sentinels are added
            have ha : e = a := by simpa using he
            rcases e with _ | _ | _ | q <;> simp [FP.isFinite] at hfin
            subst ha
            simp [general_sentinel_edges, FP.lt]
          · rcases t2 with _ | ⟨c, t3⟩
            · -- two caller edges: a finite one forces at least one sentinel
              have hab : e = a ∨ e = b := by simpa using he
              rcases e with _ | _ | _ | q <;> simp [FP.isFinite] at hfin
              rcases hab with h | h
              · subst h
                simp [general_sentinel_edges, FP.lt, List.headD]
              · subst h
                simp [general_sentinel_edges, FP.lt, List.getLastD]
            · -- three or more caller edges
              simp [general_sentinel_edges]
              omega
      simp only [Binning.nbins]
      omega

/-- C3 witness: the amended invariants at the Equispaced scheme
(identity, low 0, high 1, requested 0 bins) and the Non-Equispaced scheme
with the single finite caller edge 5. -/
theorem binning_edge_invariants_witness :
    ((Binning.uniform (Uniform.make identityT 0 1 0 "u")).edges.length
        = (Binning.uniform (Uniform.make identityT 0 1 0 "u")).nbins + 1
      ∧ 2 ≤ (Binning.uniform (Uniform.make identityT 0 1 0 "u")).nbins)
    ∧ ((Binning.general "g" (general_sentinel_edges [FP.fin 5])).edges.length
        = (Binning.general "g" (general_sentinel_edges [FP.fin 5])).nbins + 1
      ∧ 2 ≤ (Binning.general "g" (general_sentinel_edges [FP.fin 5])).nbins) := by
  refine ⟨binning_edge_invariants.1 identityT 0 1 0 "u", ?_, ?_⟩
  · exact (binning_edge_invariants.2 [FP.fin 5] "g" (by simp)).1
  · exact (binning_edge_invariants.2 [FP.fin 5] "g" (by simp)).2
      ⟨FP.fin 5, by simp, rfl⟩

/-- C7: a fill in which any coordinate is NaN returns failure (false) and
returns the histogram state entirely unchanged: entry counter and both
accumulation arrays are as before. -/
theorem fill_nan_rejected (H : histogram) (w : FP) (coords : List FP)
    (hlen : coords.length = H.dims.length)
    (hnan : ∃ v ∈ coords, v.isNan = true) :
    H.fill_with_weight w coords = some (false, H) := by
  have hv : histogram_impl.valid coords ≠ true := by
    intro h
    rcases hnan with ⟨v, hm, hn⟩
    have hq := (valid_iff coords).mp h v hm
    rw [hq] at hn
    exact Bool.false_ne_true hn
  have hv2 : histogram_impl.valid coords = false := by
    cases h : histogram_impl.valid coords
    · rfl
    · exact absurd h hv
  simp [histogram.fill_with_weight, hv2]

/-- Concrete one-dimensional histogram over the Non-Equispaced scheme with
caller edges {0, 1}: stored edges [-inf, 0, 1, +inf], 3 bins. -/
def Hgg : histogram :=
  histogram.make [Binning.general "gg" (general_sentinel_edges [FP.fin 0, FP.fin 1])] "t"

/-- Concrete one-dimensional histogram over the Equispaced identity scheme
(low 0, high 10, requested 9 bins): 11 bins. -/
def Hu : histogram :=
  histogram.make [Binning.uniform (Uniform.make identityT 0 10 9 "u")] "t"

/-- C7 witness: a NaN coordinate on a concrete one-dimensional histogram. -/
theorem fill_nan_rejected_witness :
    Hgg.fill_with_weight (FP.fin 2) [FP.nan] = some (false, Hgg) :=
  fill_nan_rejected Hgg (FP.fin 2) [FP.nan] rfl ⟨FP.nan, by simp, rfl⟩

/-- C8: counterexample.  The coordinate tuple [+inf] contains no NaN, yet on
a histogram over the Non-Equispaced scheme with caller edges {0, 1} the fill
throws (none): n_entries() is not increased and no bin is updated. -/
theorem fill_frame_counterexample :
    histogram_impl.valid [FP.posInf] = true ∧
    Hgg.fill_with_weight (FP.fin 2) [FP.posInf] = none := by
  exact ⟨rfl, rfl⟩

/-- C8 (amended): for every histogram, weight and NaN-free coordinate tuple
whose flat offset is within the bounds of both storage arrays (always the
case except when a Non-Equispaced coordinate is +inf), a single
fill_with_weight increases n_entries() by exactly 1, adds the weight to
exactly one bin's weight-sum and the squared weight to the same bin's
squared-weight-sum, and leaves every other bin, the dimension list (hence
shape, edges and labels) and the title unchanged. -/
theorem fill_frame_effect (H : histogram) (w : FP) (coords : List FP)
    (hlen : coords.length = H.dims.length)
    (hv : histogram_impl.valid coords = true)
    (h1 : histogram_impl.index H.dims coords < H.bincontent.length)
    (h2 : histogram_impl.index H.dims coords < H.squaredweights.length) :
    ∃ H2 : histogram,
      H.fill_with_weight w coords = some (true, H2)
      ∧ H2.dims = H.dims
      ∧ H2.title = H.title
      ∧ H2.n_entries = H.n_entries + 1
      ∧ H2.bincontent.length = H.bincontent.length
      ∧ H2.squaredweights.length = H.squaredweights.length
      ∧ H2.bincontent.getD (histogram_impl.index H.dims coords) (FP.fin 0)
          = FP.add (H.bincontent.getD (histogram_impl.index H.dims coords) (FP.fin 0)) w
      ∧ H2.squaredweights.getD (histogram_impl.index H.dims coords) (FP.fin 0)
          = FP.add (H.squaredweights.getD (histogram_impl.index H.dims coords) (FP.fin 0))
              (FP.mul w w)
      ∧ ∀ j : ℕ, j ≠ histogram_impl.index H.dims coords →
          H2.bincontent.getD j (FP.fin 0) = H.bincontent.getD j (FP.fin 0)
          ∧ H2.squaredweights.getD j (FP.fin 0) = H.squaredweights.getD j (FP.fin 0) := by
  refine ⟨_, fill_spec H w coords hv h1 h2, rfl, rfl, rfl, by simp, by simp,
    getD_set_self _ _ _ _ h1, getD_set_self _ _ _ _ h2, ?_⟩
  intro j hj
  exact ⟨getD_set_ne _ _ _ _ _ (Ne.symm hj), getD_set_ne _ _ _ _ _ (Ne.symm hj)⟩

/-- C8 witness: filling weight 3 at coordinate 0 of the concrete
one-dimensional Non-Equispaced histogram (target bin 1 of 3). -/
theorem fill_frame_effect_witness :
    ∃ H2 : histogram,
      Hgg.fill_with_weight (FP.fin 3) [FP.fin 0] = some (true, H2)
      ∧ H2.dims = Hgg.dims
      ∧ H2.title = Hgg.title
      ∧ H2.n_entries = Hgg.n_entries + 1
      ∧ H2.bincontent.length = Hgg.bincontent.length
      ∧ H2.squaredweights.length = Hgg.squaredweights.length
      ∧ H2.bincontent.getD (histogram_impl.index Hgg.dims [FP.fin 0]) (FP.fin 0)
          = FP.add (Hgg.bincontent.getD (histogram_impl.index Hgg.dims [FP.fin 0]) (FP.fin 0))
              (FP.fin 3)
      ∧ H2.squaredweights.getD (histogram_impl.index Hgg.dims [FP.fin 0]) (FP.fin 0)
          = FP.add (Hgg.squaredweights.getD (histogram_impl.index Hgg.dims [FP.fin 0]) (FP.fin 0))
              (FP.mul (FP.fin 3) (FP.fin 3))
      ∧ ∀ j : ℕ, j ≠ histogram_impl.index Hgg.dims [FP.fin 0] →
          H2.bincontent.getD j (FP.fin 0) = Hgg.bincontent.getD j (FP.fin 0)
          ∧ H2.squaredweights.getD j (FP.fin 0) = Hgg.squaredweights.getD j (FP.fin 0) :=
  fill_frame_effect Hgg (FP.fin 3) [FP.fin 0] rfl rfl (by decide) (by decide)

/-- C9: counterexample.  The weight is never the reason a fill fails, but
the claim as stated quantifies over all NaN-free coordinate tuples, and at
the tuple [+inf] over a Non-Equispaced dimension the fill throws (none)
instead of returning success, whatever the weight. -/
theorem fill_weight_counterexample :
    histogram_impl.valid [FP.posInf] = true ∧
    (histogram.make [Binning.general "gw"
        (general_sentinel_edges [FP.fin 0, FP.fin 1, FP.fin 2, FP.fin 3])] "t").fill_with_weight
      FP.nan [FP.posInf] = none := by
  exact ⟨rfl, rfl⟩

/-- C9 (amended): fill_with_weight never validates its weight: for every
NaN-free coordinate tuple whose flat offset is in bounds, it returns
success and increments n_entries() for every weight w — NaN and infinite
weights included — and adds w and w*w into the target bin under the IEEE
arithmetic of the accumulation arrays. -/
theorem fill_weight_unvalidated (H : histogram) (coords : List FP)
    (hlen : coords.length = H.dims.length)
    (hv : histogram_impl.valid coords = true)
    (h1 : histogram_impl.index H.dims coords < H.bincontent.length)
    (h2 : histogram_impl.index H.dims coords < H.squaredweights.length) :
    ∀ w : FP,
      ∃ H2 : histogram,
        H.fill_with_weight w coords = some (true, H2)
        ∧ H2.n_entries = H.n_entries + 1
        ∧ H2.bincontent.getD (histogram_impl.index H.dims coords) (FP.fin 0)
            = FP.add (H.bincontent.getD (histogram_impl.index H.dims coords) (FP.fin 0)) w
        ∧ H2.squaredweights.getD (histogram_impl.index H.dims coords) (FP.fin 0)
            = FP.add (H.squaredweights.getD (histogram_impl.index H.dims coords) (FP.fin 0))
                (FP.mul w w) := by
  intro w
  exact ⟨_, fill_spec H w coords hv h1 h2, rfl,
    getD_set_self _ _ _ _ h1, getD_set_self _ _ _ _ h2⟩

/-- Concrete one-dimensional histogram over the Non-Equispaced scheme with
caller edges {0, 1, 2, 3}: stored edges [-inf, 0, 1, 2, 3, +inf], 5 bins. -/
def Hgw : histogram :=
  histogram.make [Binning.general "gw"
    (general_sentinel_edges [FP.fin 0, FP.fin 1, FP.fin 2, FP.fin 3])] "t"

/-- C9 witness: a NaN weight is accepted at coordinate 2 of a concrete
histogram; the target bin pair becomes NaN and the entry counter is
incremented. -/
theorem fill_weight_unvalidated_witness :
    ∃ H2 : histogram,
      Hgw.fill_with_weight FP.nan [FP.fin 2] = some (true, H2)
      ∧ H2.n_entries = Hgw.n_entries + 1
      ∧ H2.bincontent.getD (histogram_impl.index Hgw.dims [FP.fin 2]) (FP.fin 0)
          = FP.add (Hgw.bincontent.getD (histogram_impl.index Hgw.dims [FP.fin 2]) (FP.fin 0))
              FP.nan
      ∧ H2.squaredweights.getD (histogram_impl.index Hgw.dims [FP.fin 2]) (FP.fin 0)
          = FP.add (Hgw.squaredweights.getD (histogram_impl.index Hgw.dims [FP.fin 2]) (FP.fin 0))
              (FP.mul FP.nan FP.nan) :=
  fill_weight_unvalidated Hgw [FP.fin 2] rfl rfl (by decide) (by decide) FP.nan

/-- size() of a dimension list equals the product of the bin counts. -/
theorem size_eq_prod (ds : List Binning) :
    histogram_impl.size ds = (ds.map Binning.nbins).prod := by
  induction ds with
  | nil => rfl
  | cons d t ih => simp [histogram_impl.size, ih]

/-- C6: size() is the product of every dimension's bin_count(); the stride
of dimension i is the product of bin_count() over the dimensions after i
(dimension 0 slowest-varying, row-major); and the flat offset of a
coordinate tuple is the sum over dimensions of the per-dimension index
times that stride. -/
theorem histogram_layout (dims : List Binning) (coords : List FP)
    (hlen : coords.length = dims.length) :
    histogram_impl.size dims = (dims.map Binning.nbins).prod
    ∧ (∀ i : ℕ,
        histogram_impl.stride dims i = ((dims.drop (i + 1)).map Binning.nbins).prod)
    ∧ histogram_impl.index dims coords
        = ∑ i ∈ Finset.range dims.length,
            Binning.index (dims.getD i (Binning.general "" [])) (coords.getD i FP.nan)
              * ((dims.drop (i + 1)).map Binning.nbins).prod := by
  refine ⟨size_eq_prod dims, fun i => size_eq_prod (dims.drop (i + 1)), ?_⟩
  induction dims generalizing coords with
  | nil =>
    cases coords with
    | nil => simp [histogram_impl.index]
    | cons v vs => simp at hlen
  | cons d t ih =>
    cases coords with
    | nil => simp at hlen
    | cons v vs =>
      have hlen2 : vs.length = t.length := by simpa using hlen
      rw [histogram_impl.index, List.length_cons, Finset.sum_range_succ']
      simp only [List.getD_cons_succ, List.getD_cons_zero, List.drop_succ_cons,
        List.drop_zero]
      rw [ih vs hlen2, size_eq_prod]
      exact Nat.add_comm _ _

/-- The two-dimensional dimension list of the demonstration scenario:
Equispaced identity (low 0, high 10, requested 11 bins, 13 bins total) and
Non-Equispaced with caller edges {0, 1, 2} (4 bins). -/
def demoDims : List Binning :=
  [Binning.uniform (Uniform.make identityT 0 10 11 "dimension"),
   Binning.general "general" (general_sentinel_edges [FP.fin 0, FP.fin 1, FP.fin 2])]

/-- C6 witness: the layout identities at the concrete two-dimensional
dimension list and the coordinate tuple (1, 1). -/
theorem histogram_layout_witness :
    histogram_impl.size demoDims = (demoDims.map Binning.nbins).prod
    ∧ (∀ i : ℕ,
        histogram_impl.stride demoDims i = ((demoDims.drop (i + 1)).map Binning.nbins).prod)
    ∧ histogram_impl.index demoDims [FP.fin 1, FP.fin 1]
        = ∑ i ∈ Finset.range demoDims.length,
            Binning.index (demoDims.getD i (Binning.general "" []))
                ([FP.fin 1, FP.fin 1].getD i FP.nan)
              * ((demoDims.drop (i + 1)).map Binning.nbins).prod :=
  histogram_layout demoDims [FP.fin 1, FP.fin 1] rfl

/-- C5: the Equispaced edge list is exactly -inf, then
map(range * k/(steps-1) + offset) for k = 0..steps-1 with steps =
requested_bin_count + 1, offset = imap(low) and range = imap(high) -
imap(low), then +inf; and bin_count() is steps + 1 = requested + 2.
The hypothesis steps >= 2 keeps the parameter k/(steps-1) meaningful (for
steps = 1 the source divides 0 by 0 in floating point). -/
theorem uniform_edges_spec (T : Transform) (low high : ℚ) (n : ℕ) (name : String)
    (hn : 1 ≤ n) :
    (Uniform.make T low high n name).edges
      = FP.negInf ::
          (((List.range (n + 1)).map fun (k : ℕ) =>
            FP.fin (T.map ((T.imap high - T.imap low)
              * ((k : ℚ) / (((n + 1 : ℕ) : ℚ) - 1)) + T.imap low)))
           ++ [FP.posInf])
    ∧ (Binning.uniform (Uniform.make T low high n name)).nbins = n + 2 := by
  exact ⟨rfl, rfl⟩

/-- C5 witness: the demonstration scenario's Equispaced dimension
(identity transform, low 0, high 10, requested 11 bins). -/
theorem uniform_edges_spec_witness :
    (Uniform.make identityT 0 10 11 "dimension").edges
      = FP.negInf ::
          (((List.range (11 + 1)).map fun (k : ℕ) =>
            FP.fin (identityT.map ((identityT.imap 10 - identityT.imap 0)
              * ((k : ℚ) / (((11 + 1 : ℕ) : ℚ) - 1)) + identityT.imap 0)))
           ++ [FP.posInf])
    ∧ (Binning.uniform (Uniform.make identityT 0 10 11 "dimension")).nbins = 11 + 2 :=
  uniform_edges_spec identityT 0 10 11 "dimension" (by decide)

/-- With an inversion hypothesis at low, the cached min_ is exactly low. -/
theorem make_min (T : Transform) (low high : ℚ) (n : ℕ) (name : String)
    (hl : T.map (T.imap low) = low) :
    (Uniform.make T low high n name).min = low := by
  show T.map ((T.imap high - T.imap low) * 0 + T.imap low) = low
  rw [mul_zero, zero_add, hl]

/-- With an inversion hypothesis at high, the cached max_ is exactly high. -/
theorem make_max (T : Transform) (low high : ℚ) (n : ℕ) (name : String)
    (hh : T.map (T.imap high) = high) :
    (Uniform.make T low high n name).max = high := by
  show T.map ((T.imap high - T.imap low) * 1 + T.imap low) = high
  have h : (T.imap high - T.imap low) * 1 + T.imap low = T.imap high := by ring
  rw [h, hh]

/-- The stored Equispaced edge list always has nsteps + 2 = n + 3 entries. -/
theorem make_edges_length (T : Transform) (low high : ℚ) (n : ℕ) (name : String) :
    (Uniform.make T low high n name).edges.length = n + 3 := by
  show (FP.negInf :: (((List.range (n + 1)).map fun (i : ℕ) =>
    FP.fin (T.map ((T.imap high - T.imap low) * ((i : ℚ) / (((n + 1 : ℕ) : ℚ) - 1))
      + T.imap low))) ++ [FP.posInf])).length = n + 3
  simp only [List.length_cons, List.length_append, List.length_map, List.length_range,
    List.length_singleton, List.length_nil]

/-- If high <= v (IEEE) and low < high, then v < low is IEEE-false. -/
theorem le_fin_lt_fin_false {low high : ℚ} (hlh : low < high) (v : FP)
    (h : FP.le (FP.fin high) v = true) : FP.lt v (FP.fin low) = false := by
  cases v with
  | nan => simp [FP.le] at h
  | negInf => simp [FP.le] at h
  | posInf => rfl
  | fin q =>
    simp only [FP.le, decide_eq_true_eq] at h
    simp only [FP.lt, decide_eq_false_iff_not, not_lt]
    linarith

/-- IEEE-false of a strict comparison of finite values is the opposite
non-strict comparison. -/
theorem lt_fin_false_iff (q b : ℚ) : FP.lt (FP.fin q) (FP.fin b) = false ↔ b ≤ q := by
  simp [FP.lt, not_lt]

/-- IEEE-false of a non-strict comparison of finite values is the opposite
strict comparison. -/
theorem le_fin_false_iff (a q : ℚ) : FP.le (FP.fin a) (FP.fin q) = false ↔ q < a := by
  simp [FP.le, not_le]

/-- For a monotone invertible transform and low <= q < high, the normalized
position u = (imap(q) - imap(low)) / (imap(high) - imap(low)) lies in
[0, 1). -/
theorem normalized_pos_bounds (T : Transform) (low high q : ℚ)
    (hmono : StrictMono T.imap ∨ StrictAnti T.imap) (hlh : low < high)
    (hql : low ≤ q) (hqh : q < high) :
    0 ≤ (T.imap q - T.imap low) / (T.imap high - T.imap low)
    ∧ (T.imap q - T.imap low) / (T.imap high - T.imap low) < 1 := by
  rcases hmono with hm | ha
  · have hd : 0 < T.imap high - T.imap low := sub_pos.mpr (hm hlh)
    constructor
    · exact div_nonneg (sub_nonneg.mpr (hm.le_iff_le.mpr hql)) hd.le
    · rw [div_lt_one hd]
      have := hm hqh
      linarith
  · have hd : T.imap high - T.imap low < 0 := sub_neg.mpr (ha hlh)
    constructor
    · exact div_nonneg_of_nonpos (sub_nonpos.mpr (ha.le_iff_le.mpr hql)) hd.le
    · have hnum : 0 < (T.imap q - T.imap low) - (T.imap high - T.imap low) := by
        have := ha hqh
        linarith
      have hs : (T.imap q - T.imap low) / (T.imap high - T.imap low) - 1 < 0 := by
        rw [div_sub_one hd.ne]
        exact div_neg_of_pos_of_neg hnum hd
      linarith

/-- C4: for an Equispaced scheme with a monotonic invertible transform and
low < high, and any non-NaN value v: v < low gives bin 0; v >= high gives
bin_count()-1 regardless of the transform; otherwise the bin is
floor((steps-1) * u) + 1 with steps = requested + 1 and
u = (imap(v) - imap(low)) / (imap(high) - imap(low)). -/
theorem uniform_index_characterization
    (T : Transform) (low high : ℚ) (n : ℕ) (name : String)
    (hmono : StrictMono T.imap ∨ StrictAnti T.imap)
    (hlh : low < high)
    (hl : T.map (T.imap low) = low) (hh : T.map (T.imap high) = high)
    (v : FP) (hv : v.isNan = false) :
    (FP.lt v (FP.fin low) = true → (Uniform.make T low high n name).index v = 0)
    ∧ (FP.le (FP.fin high) v = true →
        (Uniform.make T low high n name).index v
          = (Binning.uniform (Uniform.make T low high n name)).nbins - 1)
    ∧ (∀ q : ℚ, v = FP.fin q →
        FP.lt v (FP.fin low) = false → FP.le (FP.fin high) v = false →
        (((Uniform.make T low high n name).index v : ℤ)
          = Int.floor ((((n + 1 : ℕ) : ℚ) - 1)
              * ((T.imap q - T.imap low) / (T.imap high - T.imap low))) + 1)) := by
  have hmin := make_min T low high n name hl
  have hmax := make_max T low high n name hh
  refine ⟨?_, ?_, ?_⟩
  · intro h
    simp [Uniform.index, hmin, h]
  · intro h
    have h1 : FP.lt v (FP.fin low) = false := le_fin_lt_fin_false hlh v h
    simp only [Uniform.index, hmin, hmax, h1, h, Bool.false_eq_true, if_false, if_true]
    rw [make_edges_length T low high n name]
    simp [Binning.nbins, Uniform.make]
  · intro q hq h1 h2
    subst hq
    simp only [Uniform.index, hmin, hmax, h1, h2, Bool.false_eq_true, if_false]
    have hql : low ≤ q := (lt_fin_false_iff q low).mp h1
    have hqh : q < high := (le_fin_false_iff high q).mp h2
    have hu := (normalized_pos_bounds T low high q hmono hlh hql hqh).1
    have hc : (((n + 1 : ℕ) : ℚ) - 1) = (n : ℚ) := by push_cast; ring
    have hY : (0 : ℚ) ≤ (((n + 1 : ℕ) : ℚ) - 1)
        * ((T.imap q - T.imap low) / (T.imap high - T.imap low)) := by
      rw [hc]
      exact mul_nonneg (Nat.cast_nonneg n) hu
    have hfl : (0 : ℤ) ≤ Int.floor ((((n + 1 : ℕ) : ℚ) - 1)
        * ((T.imap q - T.imap low) / (T.imap high - T.imap low))) :=
      Int.floor_nonneg.mpr hY
    show ((Int.floor ((((Uniform.make T low high n name).nsteps : ℚ) - 1)
        * ((T.imap q - (Uniform.make T low high n name).offset)
          / (Uniform.make T low high n name).range))).toNat + 1 : ℤ) = _
    have hproj : ((Uniform.make T low high n name).nsteps : ℚ) = ((n + 1 : ℕ) : ℚ) := rfl
    have hoff : (Uniform.make T low high n name).offset = T.imap low := rfl
    have hrange : (Uniform.make T low high n name).range = T.imap high - T.imap low := rfl
    rw [hproj, hoff, hrange]
    push_cast at hfl ⊢
    rw [Int.toNat_of_nonneg hfl]

/-- C4 witness: the characterization at the identity transform,
low 0, high 10, requested 9 bins, value 3. -/
theorem uniform_index_characterization_witness :
    (FP.lt (FP.fin 3) (FP.fin 0) = true →
      (Uniform.make identityT 0 10 9 "u").index (FP.fin 3) = 0)
    ∧ (FP.le (FP.fin 10) (FP.fin 3) = true →
        (Uniform.make identityT 0 10 9 "u").index (FP.fin 3)
          = (Binning.uniform (Uniform.make identityT 0 10 9 "u")).nbins - 1)
    ∧ (∀ q : ℚ, FP.fin 3 = FP.fin q →
        FP.lt (FP.fin 3) (FP.fin 0) = false → FP.le (FP.fin 10) (FP.fin 3) = false →
        (((Uniform.make identityT 0 10 9 "u").index (FP.fin 3) : ℤ)
          = Int.floor ((((9 + 1 : ℕ) : ℚ) - 1)
              * ((identityT.imap q - identityT.imap 0)
                / (identityT.imap 10 - identityT.imap 0))) + 1)) :=
  uniform_index_characterization identityT 0 10 9 "u" (Or.inl fun _ _ h => h)
    (by decide) rfl rfl (FP.fin 3) rfl

/-- For a monotone invertible transform and low < high, the Equispaced
index of any non-NaN value is strictly below nbins(). -/
theorem uniform_index_lt_nbins
    (T : Transform) (low high : ℚ) (n : ℕ) (name : String)
    (hmono : StrictMono T.imap ∨ StrictAnti T.imap)
    (hlh : low < high)
    (hl : T.map (T.imap low) = low) (hh : T.map (T.imap high) = high)
    (v : FP) (hv : v.isNan = false) :
    (Uniform.make T low high n name).index v
      < (Binning.uniform (Uniform.make T low high n name)).nbins := by
  have hmin := make_min T low high n name hl
  have hmax := make_max T low high n name hh
  have hnb : (Binning.uniform (Uniform.make T low high n name)).nbins = n + 2 := rfl
  rw [hnb]
  cases h1 : FP.lt v (FP.fin low) with
  | true =>
    simp [Uniform.index, hmin, h1]
  | false =>
    cases h2 : FP.le (FP.fin high) v with
    | true =>
      simp only [Uniform.index, hmin, hmax, h1, h2, Bool.false_eq_true, if_false, if_true]
      rw [make_edges_length T low high n name]
      omega
    | false =>
      cases v with
      | nan => simp [FP.isNan] at hv
      | negInf => simp [FP.lt] at h1
      | posInf => simp [FP.le] at h2
      | fin q =>
        simp only [Uniform.index, hmin, hmax, h1, h2, Bool.false_eq_true, if_false]
        have hql : low ≤ q := (lt_fin_false_iff q low).mp h1
        have hqh : q < high := (le_fin_false_iff high q).mp h2
        obtain ⟨hu0, hu1⟩ := normalized_pos_bounds T low high q hmono hlh hql hqh
        have hproj : (((Uniform.make T low high n name).nsteps : ℚ) - 1) = (n : ℚ) := by
          show (((n + 1 : ℕ) : ℚ) - 1) = (n : ℚ)
          push_cast
          ring
        have hoff : (Uniform.make T low high n name).offset = T.imap low := rfl
        have hrange : (Uniform.make T low high n name).range = T.imap high - T.imap low := rfl
        have hT : (Uniform.make T low high n name).T = T := rfl
        rw [hproj, hoff, hrange, hT]
        have hY : (n : ℚ) * ((T.imap q - T.imap low) / (T.imap high - T.imap low))
            < (n : ℚ) + 1 := by
          have hle : (n : ℚ) * ((T.imap q - T.imap low) / (T.imap high - T.imap low))
              ≤ (n : ℚ) * 1 := by
            exact mul_le_mul_of_nonneg_left hu1.le (Nat.cast_nonneg n)
          linarith
        have hfl : Int.floor ((n : ℚ)
            * ((T.imap q - T.imap low) / (T.imap high - T.imap low))) < (n : ℤ) + 1 := by
          apply Int.floor_lt.mpr
          push_cast
          exact hY
        omega

/-- A dimension built as an Equispaced scheme from a monotonic invertible
transform with low < high. -/
def GoodUniform (d : Binning) : Prop :=
  ∃ (T : Transform) (low high : ℚ) (n : ℕ) (name : String),
    d = Binning.uniform (Uniform.make T low high n name)
    ∧ (StrictMono T.imap ∨ StrictAnti T.imap)
    ∧ low < high
    ∧ T.map (T.imap low) = low
    ∧ T.map (T.imap high) = high

/-- When every per-dimension index is below its bin count, the flat offset
is below size(). -/
theorem index_lt_size_of_forall₂ (ds : List Binning) (vs : List FP)
    (h : List.Forall₂ (fun d v => Binning.index d v < Binning.nbins d) ds vs) :
    histogram_impl.index ds vs < histogram_impl.size ds := by
  induction h with
  | nil => simp [histogram_impl.index, histogram_impl.size]
  | @cons d v ds2 vs2 hdv _ ih =>
    rw [histogram_impl.index, histogram_impl.size]
    calc Binning.index d v * histogram_impl.size ds2 + histogram_impl.index ds2 vs2
        < Binning.index d v * histogram_impl.size ds2 + histogram_impl.size ds2 :=
          Nat.add_lt_add_left ih _
      _ = (Binning.index d v + 1) * histogram_impl.size ds2 := by ring
      _ ≤ Binning.nbins d * histogram_impl.size ds2 :=
          Nat.mul_le_mul_right _ hdv

/-- On a dimension list of good Equispaced schemes, NaN-free coordinates
have per-dimension indices below the bin counts. -/
theorem forall₂_of_good (ds : List Binning) (vs : List FP)
    (hlen : vs.length = ds.length)
    (hg : ∀ d ∈ ds, GoodUniform d) (hv : ∀ v ∈ vs, v.isNan = false) :
    List.Forall₂ (fun d v => Binning.index d v < Binning.nbins d) ds vs := by
  induction ds generalizing vs with
  | nil =>
    cases vs with
    | nil => exact List.Forall₂.nil
    | cons v vs2 => simp at hlen
  | cons d t ih =>
    cases vs with
    | nil => simp at hlen
    | cons v vs2 =>
      refine List.Forall₂.cons ?_
        (ih vs2 (by simpa using hlen) (fun x hx => hg x (List.mem_cons_of_mem _ hx))
          (fun x hx => hv x (List.mem_cons_of_mem _ hx)))
      obtain ⟨T, low, high, n, name, hd, hmono, hlh, hl, hh⟩ := hg d (List.mem_cons_self _ _)
      subst hd
      exact uniform_index_lt_nbins T low high n name hmono hlh hl hh v
        (hv v (List.mem_cons_self _ _))

/-- C10: with a monotonic invertible transform and low < high, the
Equispaced index of a non-NaN value is strictly below bin_count(); hence a
fill on a histogram composed only of such schemes computes a flat offset
below size() and the bounds-checked accesses never throw: the fill returns
success. -/
theorem uniform_fill_safe :
    (∀ (T : Transform) (low high : ℚ) (n : ℕ) (name : String),
      (StrictMono T.imap ∨ StrictAnti T.imap) → low < high →
      T.map (T.imap low) = low → T.map (T.imap high) = high →
      ∀ v : FP, v.isNan = false →
        (Uniform.make T low high n name).index v
          < (Binning.uniform (Uniform.make T low high n name)).nbins)
    ∧ (∀ H : histogram, (∀ d ∈ H.dims, GoodUniform d) →
        H.bincontent.length = histogram_impl.size H.dims →
        H.squaredweights.length = histogram_impl.size H.dims →
        ∀ (w : FP) (coords : List FP), coords.length = H.dims.length →
          (∀ v ∈ coords, v.isNan = false) →
          histogram_impl.index H.dims coords < histogram_impl.size H.dims
          ∧ ∃ H2 : histogram, H.fill_with_weight w coords = some (true, H2)) := by
  constructor
  · intro T low high n name hmono hlh hl hh v hv
    exact uniform_index_lt_nbins T low high n name hmono hlh hl hh v hv
  · intro H hg hb hs w coords hlen hnn
    have hf := forall₂_of_good H.dims coords hlen hg hnn
    have hidx := index_lt_size_of_forall₂ H.dims coords hf
    refine ⟨hidx, ⟨_, fill_spec H w coords ((valid_iff coords).mpr hnn) ?_ ?_⟩⟩
    · rw [hb]
      exact hidx
    · rw [hs]
      exact hidx

/-- C10 witness: the index bound at value 3 of the concrete Equispaced
scheme, and offset-in-range plus successful fill on the concrete
one-dimensional Equispaced histogram. -/
theorem uniform_fill_safe_witness :
    (Uniform.make identityT 0 10 9 "u").index (FP.fin 3)
        < (Binning.uniform (Uniform.make identityT 0 10 9 "u")).nbins
    ∧ (histogram_impl.index Hu.dims [FP.fin 3] < histogram_impl.size Hu.dims
       ∧ ∃ H2 : histogram, Hu.fill_with_weight (FP.fin 2) [FP.fin 3] = some (true, H2)) := by
  constructor
  · exact uniform_fill_safe.1 identityT 0 10 9 "u" (Or.inl fun _ _ h => h) (by decide)
      rfl rfl (FP.fin 3) rfl
  · refine uniform_fill_safe.2 Hu ?_ rfl rfl (FP.fin 2) [FP.fin 3] rfl ?_
    · intro d hd
      have hd2 : d = Binning.uniform (Uniform.make identityT 0 10 9 "u") := by
        simpa [Hu, histogram.make] using hd
      exact ⟨identityT, 0, 10, 9, "u", hd2, Or.inl fun _ _ h => h, by decide, rfl, rfl⟩
    · intro v hv
      rw [List.mem_singleton.mp hv]
      rfl
